import Mathlib

/-!
Shallow embedding of `src/input/history.rs`: a bounded, deduplicating line
history (`LineHistory`) together with a navigation cursor (`InputHistoryRef`).

Modelling choices:
* Rust `String` is modelled as `List Char`; `s.push c` is `s ++ [c]`,
  `s.pop()` is `List.dropLast`.
* `VecDeque<String>` is modelled as `List (List Char)` with index 0 at the
  front; `push_back` appends, `pop_front` is `List.drop 1`, `remove pos` is
  `List.eraseIdx pos` (returning the removed element, read via `List.getD`).
* `isize` is modelled as `Int`; the single place where the `isize` width is
  observable is `pos.checked_abs().unwrap_or(0)`, which yields `0` exactly at
  `isize::MIN = -(2^63)` and `|pos|` elsewhere (`checkedAbsOr0`).
* The store is shared via `Rc<RefCell<LineHistory>>` in Rust; here the cursor
  record carries the store and every operation threads it explicitly.
* `InputHistoryRef::push_char` returns `&String` and has an `unreachable!()`
  arm; the model returns `Option (List Char)` where `none` marks that arm.
* `Drop for InputHistoryRef` just calls `clear`, so disposal is `clear`.
-/

namespace AmpHistory

/-- The `HistoryPos` enum of the source: no active input (`Nothing`), an
active input string (`Str`), or a position in the line history (`Pos`). -/
inductive HistoryPos where
  | Nothing : HistoryPos
  | Str : List Char → HistoryPos
  | Pos : Int → HistoryPos
  deriving DecidableEq

/-- The `LineHistory` struct: the stored lines (front = oldest) and the
capacity `max_history`. -/
structure LineHistory where
  lines : List (List Char)
  max_history : Nat
  deriving DecidableEq

/-- `LineHistory::new`. -/
def LineHistory.new (max_history : Nat) : LineHistory :=
  { lines := [], max_history := max_history }

/-- `LineHistory::find_pos`: `self.lines.iter().position(|org_s| org_s == new_s)`,
the index of the first occurrence of `new_s`. -/
def find_pos (lines : List (List Char)) (new_s : List Char) : Option Nat :=
  match lines with
  | [] => none
  | org_s :: rest =>
      if org_s = new_s then some 0 else (find_pos rest new_s).map (· + 1)

/-- `LineHistory::add`: no-op at capacity 0; a duplicate is removed from its
position and pushed to the back; otherwise the new line is pushed to the back,
popping the front first when the store is exactly at capacity. -/
def LineHistory.add (self : LineHistory) (new_s : List Char) : LineHistory :=
  if self.max_history = 0 then
    self
  else
    match find_pos self.lines new_s with
    | some pos =>
        let s := self.lines.getD pos []
        { self with lines := self.lines.eraseIdx pos ++ [s] }
    | none =>
        let lines :=
          if self.lines.length = self.max_history then self.lines.drop 1
          else self.lines
        { self with lines := lines ++ [new_s] }

/-- `isize::MIN`, the one value where `checked_abs` fails. -/
def isizeMin : Int := -(2 ^ 63)

/-- `pos.checked_abs().unwrap_or(0) as usize`. -/
def checkedAbsOr0 (pos : Int) : Nat :=
  if pos = isizeMin then 0 else pos.natAbs

/-- `LineHistory::get`: resolve a signed position in the cyclic space of size
`len + 1`. Out-of-range indexing (unreachable: the reduced index is `< len`)
is rendered by the `Option`-valued `l[i]?`. -/
def LineHistory.get (self : LineHistory) (pos : Int) : Option (List Char) :=
  let len := self.lines.length
  if len = 0 ∨ pos = 0 then
    none
  else if pos < 0 then
    let p := checkedAbsOr0 pos % (len + 1)
    if p = 0 then none else self.lines[p - 1]?
  else
    let p := pos.toNat % (len + 1)
    if p = 0 then none else self.lines[len - p]?

/-- The `InputHistoryRef` struct: the shared store (threaded explicitly), the
current `HistoryPos`, and the cached `no_history` flag. -/
structure InputHistoryRef where
  lines : LineHistory
  current : HistoryPos
  no_history : Bool
  deriving DecidableEq

/-- `InputHistoryRef::set_current`. -/
def InputHistoryRef.set_current (self : InputHistoryRef)
    (current : Option (List Char)) : InputHistoryRef :=
  match current with
  | some s => { self with current := .Str s }
  | none => { self with current := .Nothing }

/-- `InputHistory::make_ref`: a fresh reference with `no_history` cached from
the store's capacity, then seeded via `set_current`. -/
def make_ref (store : LineHistory) (init_query : Option (List Char)) :
    InputHistoryRef :=
  InputHistoryRef.set_current
    { lines := store, current := .Nothing, no_history := store.max_history == 0 }
    init_query

/-- `InputHistoryRef::push_char`: append `c` to the current string (starting a
fresh one from any other state) and return the current string. The second
component is `none` exactly on the `unreachable!()` arm of the source. -/
def InputHistoryRef.push_char (self : InputHistoryRef) (c : Char) :
    InputHistoryRef × Option (List Char) :=
  let self :=
    match self.current with
    | .Str s => { self with current := .Str (s ++ [c]) }
    | _ => { self with current := .Str [c] }
  match self.current with
  | .Str s => (self, some s)
  | _ => (self, none)

/-- `InputHistoryRef::pop_char`: drop the last character of the current string
and return it; `none` when there is no current string. -/
def InputHistoryRef.pop_char (self : InputHistoryRef) :
    InputHistoryRef × Option (List Char) :=
  match self.current with
  | .Str s => ({ self with current := .Str s.dropLast }, some s.dropLast)
  | _ => (self, none)

/-- `InputHistoryRef::clear`: commit the current content (an active string, or
the resolved navigated entry) into the store and reset to `Nothing`; with
`no_history` just reset. `Drop` calls exactly this. -/
def InputHistoryRef.clear (self : InputHistoryRef) : InputHistoryRef :=
  if self.no_history then
    { self with current := .Nothing }
  else
    match self.current with
    | .Nothing => { self with current := .Nothing }
    | .Str s => { self with current := .Nothing, lines := self.lines.add s }
    | .Pos pos =>
        match self.lines.get pos with
        | some s => { self with current := .Nothing, lines := self.lines.add s }
        | none => { self with current := .Nothing }

/-- `InputHistoryRef::as_ref`: the currently displayed value. -/
def InputHistoryRef.as_ref (self : InputHistoryRef) : Option (List Char) :=
  match self.current with
  | .Nothing => none
  | .Str s => some s
  | .Pos pos => self.lines.get pos

/-- `InputHistoryRef::move_to_prev`. -/
def InputHistoryRef.move_to_prev (self : InputHistoryRef) :
    InputHistoryRef × Option (List Char) :=
  if self.no_history then
    (self, self.as_ref)
  else
    let self :=
      match self.current with
      | .Nothing => { self with current := .Pos 1 }
      | .Str s => { self with lines := self.lines.add s, current := .Pos 2 }
      | .Pos pos => { self with current := .Pos (pos + 1) }
    (self, self.as_ref)

/-- `InputHistoryRef::move_to_next`. -/
def InputHistoryRef.move_to_next (self : InputHistoryRef) :
    InputHistoryRef × Option (List Char) :=
  if self.no_history then
    (self, self.as_ref)
  else
    let self :=
      match self.current with
      | .Nothing => { self with current := .Pos (-1) }
      | .Str s => { self with lines := self.lines.add s, current := .Pos 0 }
      | .Pos pos => { self with current := .Pos (pos - 1) }
    (self, self.as_ref)

/-- One cursor operation of the public interface. -/
inductive CursorOp where
  | setCurrent : Option (List Char) → CursorOp
  | pushChar : Char → CursorOp
  | popChar : CursorOp
  | moveToPrev : CursorOp
  | moveToNext : CursorOp
  | clearOp : CursorOp
  deriving DecidableEq

/-- Apply one cursor operation (discarding the returned value). -/
def applyOp (st : InputHistoryRef) (op : CursorOp) : InputHistoryRef :=
  match op with
  | .setCurrent s => st.set_current s
  | .pushChar c => (st.push_char c).1
  | .popChar => st.pop_char.1
  | .moveToPrev => st.move_to_prev.1
  | .moveToNext => st.move_to_next.1
  | .clearOp => st.clear

/-- Apply a finite sequence of cursor operations. -/
def applyOps (st : InputHistoryRef) (ops : List CursorOp) : InputHistoryRef :=
  ops.foldl applyOp st

/-- Apply a sequence of `add` calls to a store. -/
def addAll (h : LineHistory) (ss : List (List Char)) : LineHistory :=
  ss.foldl LineHistory.add h

/-- The spec's description of `get`, transcribed from its words: for
`position > 0`, `p = position mod (len+1)` selects `entries[len - p]` unless
`p = 0`; for `position < 0`, `p = |position| mod (len+1)` (mathematical
absolute value, no saturation) selects `entries[p - 1]` unless `p = 0`. -/
def getSpecModel (entries : List (List Char)) (pos : Int) : Option (List Char) :=
  let len := entries.length
  if len = 0 ∨ pos = 0 then
    none
  else if pos > 0 then
    let p := pos.toNat % (len + 1)
    if p = 0 then none else entries[len - p]?
  else
    let p := pos.natAbs % (len + 1)
    if p = 0 then none else entries[p - 1]?

/-! ## Helper lemmas about the store -/

theorem find_pos_eq_none_iff (l : List (List Char)) (s : List Char) :
    find_pos l s = none ↔ s ∉ l := by
  induction l with
  | nil => simp [find_pos]
  | cons a rest ih =>
      by_cases has : a = s
      · subst has; simp [find_pos]
      · simp only [find_pos, has, if_false, Option.map_eq_none', ih,
          List.mem_cons]
        constructor
        · intro hn hor
          rcases hor with h1 | h2
          · exact has h1.symm
          · exact hn h2
        · intro hn hs
          exact hn (Or.inr hs)

theorem find_pos_spec {l : List (List Char)} {s : List Char} {p : Nat}
    (h : find_pos l s = some p) :
    p < l.length ∧ l.getD p [] = s ∧ l.eraseIdx p = l.erase s := by
  induction l generalizing p with
  | nil => simp [find_pos] at h
  | cons a rest ih =>
      by_cases has : a = s
      · subst has
        simp [find_pos] at h
        subst h
        simp
      · simp [find_pos, has, Option.map_eq_some'] at h
        obtain ⟨q, hq, hp⟩ := h
        subst hp
        obtain ⟨h1, h2, h3⟩ := ih hq
        refine ⟨by simpa using Nat.succ_lt_succ h1, by simpa using h2, ?_⟩
        rw [List.eraseIdx_cons_succ, h3, List.erase_cons_tail (by simpa using has)]

theorem add_max_history (h : LineHistory) (s : List Char) :
    (h.add s).max_history = h.max_history := by
  by_cases hc : h.max_history = 0
  · simp [LineHistory.add, hc]
  · rcases hfp : find_pos h.lines s with _ | p <;> simp [LineHistory.add, hc, hfp]

theorem add_of_zero_cap (h : LineHistory) (s : List Char)
    (hc : h.max_history = 0) : h.add s = h := by
  simp [LineHistory.add, hc]

theorem add_lines_of_mem (h : LineHistory) (s : List Char)
    (hc : h.max_history ≠ 0) (hm : s ∈ h.lines) :
    (h.add s).lines = h.lines.erase s ++ [s] := by
  rcases hfp : find_pos h.lines s with _ | p
  · exact absurd ((find_pos_eq_none_iff _ _).1 hfp) (by simpa using hm)
  · obtain ⟨h1, h2, h3⟩ := find_pos_spec hfp
    have h2' : h.lines[p]?.getD [] = s := by
      rw [← List.getD_eq_getElem?_getD]; exact h2
    simp [LineHistory.add, hc, hfp, h2', h3]

theorem add_lines_of_not_mem (h : LineHistory) (s : List Char)
    (hc : h.max_history ≠ 0) (hm : s ∉ h.lines) :
    (h.add s).lines =
      (if h.lines.length = h.max_history then h.lines.drop 1 else h.lines)
        ++ [s] := by
  have hfp : find_pos h.lines s = none := (find_pos_eq_none_iff _ _).2 hm
  simp [LineHistory.add, hc, hfp]

theorem nodup_append_singleton {l : List (List Char)} {s : List Char}
    (hnd : l.Nodup) (hm : s ∉ l) : (l ++ [s]).Nodup := by
  refine List.nodup_append.2 ⟨hnd, List.nodup_singleton s, ?_⟩
  intro a ha hb
  simp at hb
  subst hb
  exact hm ha

theorem add_preserves_invariants (h : LineHistory) (s : List Char)
    (hlen : h.lines.length ≤ h.max_history) (hnd : h.lines.Nodup) :
    (h.add s).lines.length ≤ h.max_history ∧ (h.add s).lines.Nodup := by
  by_cases hc : h.max_history = 0
  · rw [add_of_zero_cap h s hc]
    exact ⟨hlen, hnd⟩
  by_cases hm : s ∈ h.lines
  · rw [add_lines_of_mem h s hc hm]
    have hle : (h.lines.erase s).length = h.lines.length - 1 :=
      List.length_erase_of_mem hm
    have hpos : 0 < h.lines.length := List.length_pos_of_mem hm
    constructor
    · simp only [List.length_append, List.length_singleton, hle]
      omega
    · exact nodup_append_singleton (hnd.erase s) hnd.not_mem_erase
  · rw [add_lines_of_not_mem h s hc hm]
    by_cases hfull : h.lines.length = h.max_history
    · have hnd1 : (h.lines.drop 1).Nodup := (List.drop_sublist 1 _).nodup hnd
      have hm1 : s ∉ h.lines.drop 1 := fun hx => hm (List.mem_of_mem_drop hx)
      refine ⟨?_, by simpa [hfull] using nodup_append_singleton hnd1 hm1⟩
      simp only [hfull, if_true, List.length_append, List.length_drop,
        List.length_singleton]
      omega
    · refine ⟨?_, by simpa [hfull] using nodup_append_singleton hnd hm⟩
      simp only [hfull, if_false, List.length_append, List.length_singleton]
      omega

theorem addAll_preserves (ss : List (List Char)) (h : LineHistory)
    (hlen : h.lines.length ≤ h.max_history) (hnd : h.lines.Nodup) :
    (addAll h ss).max_history = h.max_history ∧
      (addAll h ss).lines.length ≤ h.max_history ∧ (addAll h ss).lines.Nodup := by
  induction ss generalizing h with
  | nil => exact ⟨rfl, hlen, hnd⟩
  | cons s rest ih =>
      obtain ⟨l1, l2⟩ := add_preserves_invariants h s hlen hnd
      have hmax := add_max_history h s
      have step := ih (h.add s) (by rw [hmax]; exact l1) l2
      refine ⟨?_, ?_, step.2.2⟩
      · simpa [addAll, hmax] using step.1
      · simpa [addAll, hmax] using step.2.1

/-! ## Helper lemmas about `get` -/

theorem get_zero (h : LineHistory) : h.get 0 = none := by
  simp [LineHistory.get]

theorem get_isizeMin (h : LineHistory) : h.get isizeMin = none := by
  by_cases hlen : h.lines.length = 0
  · simp [LineHistory.get, hlen]
  · have hneg : isizeMin < 0 := by norm_num [isizeMin]
    have hne : ¬(isizeMin = 0) := by norm_num [isizeMin]
    simp [LineHistory.get, hlen, hne, hneg, checkedAbsOr0]

theorem get_two (h : LineHistory) :
    h.get 2 =
      if 2 ≤ h.lines.length then h.lines[h.lines.length - 2]? else none := by
  by_cases hlen : h.lines.length = 0
  · simp [LineHistory.get, hlen]
  by_cases h1 : h.lines.length = 1
  · simp [LineHistory.get, h1]
  · have h2 : 2 ≤ h.lines.length := by omega
    have hmod : (2 : Nat) % (h.lines.length + 1) = 2 :=
      Nat.mod_eq_of_lt (by omega)
    simp [LineHistory.get, hlen, hmod, h2]

theorem add_getLast (h : LineHistory) (s : List Char) (hc : h.max_history ≠ 0) :
    (h.add s).lines.getLast? = some s := by
  by_cases hm : s ∈ h.lines
  · rw [add_lines_of_mem h s hc hm]; simp
  · rw [add_lines_of_not_mem h s hc hm]; simp

/-! ## Helper lemmas about the cursor -/

theorem applyOps_cons (st : InputHistoryRef) (op : CursorOp)
    (ops : List CursorOp) :
    applyOps st (op :: ops) = applyOps (applyOp st op) ops := rfl

theorem clear_current (st : InputHistoryRef) :
    st.clear.current = HistoryPos.Nothing := by
  unfold InputHistoryRef.clear
  split
  · rfl
  · split
    · rfl
    · rfl
    · split <;> rfl

theorem clear_of_nothing (st : InputHistoryRef)
    (h : st.current = HistoryPos.Nothing) : st.clear = st := by
  obtain ⟨l, cur, nh⟩ := st
  simp only at h
  subst h
  cases nh <;> rfl

theorem applyOp_zero_cap (st : InputHistoryRef) (op : CursorOp)
    (h : st.no_history = true) :
    (applyOp st op).lines = st.lines ∧ (applyOp st op).no_history = true := by
  cases op with
  | setCurrent s => cases s <;> simp [applyOp, InputHistoryRef.set_current, h]
  | pushChar c =>
      cases hc : st.current <;> simp [applyOp, InputHistoryRef.push_char, hc, h]
  | popChar =>
      cases hc : st.current <;> simp [applyOp, InputHistoryRef.pop_char, hc, h]
  | moveToPrev => simp [applyOp, InputHistoryRef.move_to_prev, h]
  | moveToNext => simp [applyOp, InputHistoryRef.move_to_next, h]
  | clearOp => simp [applyOp, InputHistoryRef.clear, h]

theorem applyOps_zero_cap (ops : List CursorOp) (st : InputHistoryRef)
    (h : st.no_history = true) :
    (applyOps st ops).lines = st.lines ∧ (applyOps st ops).no_history = true := by
  induction ops generalizing st with
  | nil => exact ⟨rfl, h⟩
  | cons op rest ih =>
      obtain ⟨h1, h2⟩ := applyOp_zero_cap st op h
      have step := ih (applyOp st op) h2
      rw [applyOps_cons]
      exact ⟨by rw [step.1, h1], step.2⟩

theorem make_ref_none (store : LineHistory) (h : store.max_history ≠ 0) :
    make_ref store none = ⟨store, HistoryPos.Nothing, false⟩ := by
  have hb : (store.max_history == 0) = false := by simpa using h
  simp [make_ref, InputHistoryRef.set_current, hb]

theorem applyOps_replicate_prev (lines : LineHistory) (p : Int) (k : Nat) :
    applyOps ⟨lines, HistoryPos.Pos p, false⟩
        (List.replicate k CursorOp.moveToPrev) =
      ⟨lines, HistoryPos.Pos (p + k), false⟩ := by
  induction k generalizing p with
  | zero => simp [applyOps]
  | succ n ih =>
      rw [List.replicate_succ, applyOps_cons]
      have hstep : applyOp (⟨lines, HistoryPos.Pos p, false⟩ : InputHistoryRef)
          CursorOp.moveToPrev = ⟨lines, HistoryPos.Pos (p + 1), false⟩ := by
        simp [applyOp, InputHistoryRef.move_to_prev]
      rw [hstep, ih]
      have harith : p + 1 + (n : Int) = p + ((n + 1 : Nat) : Int) := by
        push_cast; ring
      rw [harith]

theorem applyOps_replicate_next (lines : LineHistory) (p : Int) (k : Nat) :
    applyOps ⟨lines, HistoryPos.Pos p, false⟩
        (List.replicate k CursorOp.moveToNext) =
      ⟨lines, HistoryPos.Pos (p - k), false⟩ := by
  induction k generalizing p with
  | zero => simp [applyOps]
  | succ n ih =>
      rw [List.replicate_succ, applyOps_cons]
      have hstep : applyOp (⟨lines, HistoryPos.Pos p, false⟩ : InputHistoryRef)
          CursorOp.moveToNext = ⟨lines, HistoryPos.Pos (p - 1), false⟩ := by
        simp [applyOp, InputHistoryRef.move_to_next]
      rw [hstep, ih]
      have harith : p - 1 - (n : Int) = p - ((n + 1 : Nat) : Int) := by
        push_cast; ring
      rw [harith]

theorem prev_results (store : LineHistory) (h : store.max_history ≠ 0)
    (k : Nat) :
    (applyOps (make_ref store none)
        (List.replicate k CursorOp.moveToPrev)).move_to_prev.2 =
      store.get ((k : Int) + 1) := by
  rw [make_ref_none store h]
  cases k with
  | zero =>
      simp [applyOps, InputHistoryRef.move_to_prev, InputHistoryRef.as_ref]
  | succ n =>
      rw [List.replicate_succ, applyOps_cons]
      have h1 : applyOp (⟨store, HistoryPos.Nothing, false⟩ : InputHistoryRef)
          CursorOp.moveToPrev = ⟨store, HistoryPos.Pos 1, false⟩ := by
        simp [applyOp, InputHistoryRef.move_to_prev]
      rw [h1, applyOps_replicate_prev store 1 n]
      simp [InputHistoryRef.move_to_prev, InputHistoryRef.as_ref]
      congr 1
      omega

theorem next_results (store : LineHistory) (h : store.max_history ≠ 0)
    (k : Nat) :
    (applyOps (make_ref store none)
        (List.replicate k CursorOp.moveToNext)).move_to_next.2 =
      store.get (-((k : Int) + 1)) := by
  rw [make_ref_none store h]
  cases k with
  | zero =>
      simp [applyOps, InputHistoryRef.move_to_next, InputHistoryRef.as_ref]
  | succ n =>
      rw [List.replicate_succ, applyOps_cons]
      have h1 : applyOp (⟨store, HistoryPos.Nothing, false⟩ : InputHistoryRef)
          CursorOp.moveToNext = ⟨store, HistoryPos.Pos (-1), false⟩ := by
        simp [applyOp, InputHistoryRef.move_to_next]
      rw [h1, applyOps_replicate_next store (-1) n]
      simp [InputHistoryRef.move_to_next, InputHistoryRef.as_ref]
      congr 1
      omega

theorem get_three_pos (a b c : List Char) (cap : Nat) (m : Nat) (hm : 0 < m) :
    (LineHistory.mk [a, b, c] cap).get (m : Int) =
      (match m % 4 with
        | 1 => some c
        | 2 => some b
        | 3 => some a
        | _ => none) := by
  have hz : ¬((m : Int) = 0) := by exact_mod_cast Nat.pos_iff_ne_zero.mp hm
  have hneg : ¬((m : Int) < 0) := by omega
  rcases (by omega : m % 4 = 0 ∨ m % 4 = 1 ∨ m % 4 = 2 ∨ m % 4 = 3)
    with h4 | h4 | h4 | h4 <;>
    simp [LineHistory.get, hz, hneg, h4]

theorem get_three_neg (a b c : List Char) (cap : Nat) (m : Nat) (hm : 0 < m) :
    (LineHistory.mk [a, b, c] cap).get (-(m : Int)) =
      (match m % 4 with
        | 1 => some a
        | 2 => some b
        | 3 => some c
        | _ => none) := by
  have hz : ¬(-(m : Int) = 0) := by omega
  have hneg : -(m : Int) < 0 := by omega
  by_cases hmin : -(m : Int) = isizeMin
  · have hm63 : m = 2 ^ 63 := by
      rw [isizeMin] at hmin
      have hmc : (m : Int) = 2 ^ 63 := neg_inj.mp hmin
      exact_mod_cast hmc
    have h4 : m % 4 = 0 := by
      rw [hm63]
      decide
    have hlt : isizeMin < 0 := by norm_num [isizeMin]
    have hne0 : ¬(isizeMin = 0) := by norm_num [isizeMin]
    simp [LineHistory.get, checkedAbsOr0, hmin, h4, hlt, hne0]
  · have habs : checkedAbsOr0 (-(m : Int)) = m := by
      simp [checkedAbsOr0, hmin]
    rcases (by omega : m % 4 = 0 ∨ m % 4 = 1 ∨ m % 4 = 2 ∨ m % 4 = 3)
      with h4 | h4 | h4 | h4 <;>
      simp [LineHistory.get, hz, hneg, habs, h4]

/-! ## Claims -/

/-- C1, counterexample: `Navigating(0)` is a reachable at-rest state. Against
a store of capacity 4, pushing a character (state `Editing("a")`) and then
calling `moveToNext` commits `"a"` and leaves the cursor at `Navigating(0)`
after the operation has completed. -/
theorem C1_counterexample :
    (applyOps (make_ref (LineHistory.new 4) none)
      [CursorOp.pushChar 'a', CursorOp.moveToNext]).current =
      HistoryPos.Pos 0 := by
  decide

/-- C1, amended: `Navigating(0)` is reachable at rest (e.g. `moveToNext` from
`Editing`), but whenever the state after a sequence of operations is
`Navigating(0)`, the cursor resolves to none (the blank slot), so the
position 0 is never a selected entry. -/
theorem C1_nav_zero_resolves_none (st0 : InputHistoryRef)
    (ops : List CursorOp) (h : (applyOps st0 ops).current = HistoryPos.Pos 0) :
    (applyOps st0 ops).as_ref = none := by
  simp [InputHistoryRef.as_ref, h, get_zero]

/-- Witness for C1's amended theorem at a concrete reachable `Navigating(0)`. -/
theorem C1_nav_zero_witness :
    (applyOps (make_ref (LineHistory.new 4) none)
      [CursorOp.setCurrent (some ['b']), CursorOp.moveToNext]).as_ref = none :=
  C1_nav_zero_resolves_none (make_ref (LineHistory.new 4) none)
    [CursorOp.setCurrent (some ['b']), CursorOp.moveToNext] (by decide)

/-- C2, counterexample: at the most negative representable offset
`-(2^63)`, `checked_abs` fails and the code saturates to 0, returning
"not found", while the claim's formula (`p = |position| mod (len+1)`,
`entries[p-1]` when `p ≠ 0`) selects entry `"b"`: for the two-entry store,
`2^63 mod 3 = 2 ≠ 0` and `entries[2-1] = "b"`. -/
theorem C2_counterexample :
    LineHistory.get { lines := [['a'], ['b']], max_history := 4 } (-(2 ^ 63))
        = none ∧
    (2 ^ 63 : Nat) % (2 + 1) = 2 ∧
    getSpecModel [['a'], ['b']] (-(2 ^ 63)) = some ['b'] := by
  refine ⟨get_isizeMin _, by norm_num, by decide⟩

/-- C2, amended: `get` implements exactly the spec's signed cyclic lookup
formula at every position other than `isize::MIN`; at `isize::MIN` the
saturating `checked_abs().unwrap_or(0)` makes the result "not found". -/
theorem C2_get_matches_spec (h : LineHistory) (pos : Int) :
    h.get pos = if pos = isizeMin then none else getSpecModel h.lines pos := by
  by_cases hmin : pos = isizeMin
  · simpa [hmin] using get_isizeMin h
  simp only [hmin, if_false]
  by_cases hlen : h.lines.length = 0
  · simp [LineHistory.get, getSpecModel, hlen]
  by_cases hz : pos = 0
  · simp [LineHistory.get, getSpecModel, hz]
  by_cases hneg : pos < 0
  · have hngt : ¬pos > 0 := by omega
    simp [LineHistory.get, getSpecModel, hlen, hz, hneg, hngt,
      checkedAbsOr0, hmin]
  · have hpos : pos > 0 := by omega
    simp [LineHistory.get, getSpecModel, hlen, hz, hneg, hpos]

/-- C3: for a store `[a,b,c]` (oldest→newest) with capacity ≥ 3, repeated
`moveToPrev` from `Empty` returns `c, b, a, none, c, b, a, none, …` and
repeated `moveToNext` returns `a, b, c, none, a, b, c, none, …`, both with
period `4 = len + 1`: the `(k+1)`-th call's result depends only on
`(k+1) mod 4`. -/
theorem C3_cyclic_navigation (a b c : List Char) (cap : Nat) (hcap : 3 ≤ cap)
    (k : Nat) :
    (applyOps (make_ref (LineHistory.mk [a, b, c] cap) none)
        (List.replicate k CursorOp.moveToPrev)).move_to_prev.2 =
      (match (k + 1) % 4 with
        | 1 => some c
        | 2 => some b
        | 3 => some a
        | _ => none) ∧
    (applyOps (make_ref (LineHistory.mk [a, b, c] cap) none)
        (List.replicate k CursorOp.moveToNext)).move_to_next.2 =
      (match (k + 1) % 4 with
        | 1 => some a
        | 2 => some b
        | 3 => some c
        | _ => none) := by
  have hc : (LineHistory.mk [a, b, c] cap).max_history ≠ 0 := by
    simp only []
    omega
  have hcast : ((k : Int) + 1) = ((k + 1 : Nat) : Int) := by push_cast; ring
  constructor
  · rw [prev_results _ hc k, hcast, get_three_pos a b c cap (k + 1) (by omega)]
  · rw [next_results _ hc k, hcast, get_three_neg a b c cap (k + 1) (by omega)]

/-- Witness for C3 at `a,b,c` concrete, capacity 3, first call. -/
theorem C3_cyclic_navigation_witness :
    (applyOps (make_ref (LineHistory.mk [['a'], ['b'], ['c']] 3) none)
        (List.replicate 0 CursorOp.moveToPrev)).move_to_prev.2 = some ['c'] ∧
    (applyOps (make_ref (LineHistory.mk [['a'], ['b'], ['c']] 3) none)
        (List.replicate 0 CursorOp.moveToNext)).move_to_next.2 = some ['a'] :=
  C3_cyclic_navigation ['a'] ['b'] ['c'] 3 (by norm_num) 0

/-- C4, counterexample: with store `["a","b"]` (oldest→newest) and in-progress
text `"c"`, `moveToPrev` returns `"b"` — the most-recent entry before the
commit — not `"a"`, the entry that was second-most-recent before `"c"` was
committed. -/
theorem C4_counterexample :
    ((make_ref { lines := [['a'], ['b']], max_history := 4 }
        (some ['c'])).move_to_prev.2 = some ['b']) ∧
    ((make_ref { lines := [['a'], ['b']], max_history := 4 }
        (some ['c'])).move_to_prev.2 ≠ some ['a']) := by
  decide

/-- C4, amended: from `Editing(t)` with capacity > 0, `moveToPrev` commits `t`
(which becomes the tail entry), transitions to `Navigating(2)`, and returns
the second-from-tail entry of the post-commit store (skipping the slot just
promoted/inserted by the commit; none when fewer than two entries remain);
`moveToNext` commits `t`, transitions to `Navigating(0)`, and returns none. -/
theorem C4_commit_then_navigate (st : InputHistoryRef) (t : List Char)
    (hcur : st.current = HistoryPos.Str t) (hnh : st.no_history = false)
    (hcap : 0 < st.lines.max_history) :
    (st.move_to_prev.1.lines = st.lines.add t ∧
      st.move_to_prev.1.current = HistoryPos.Pos 2 ∧
      (st.lines.add t).lines.getLast? = some t ∧
      st.move_to_prev.2 =
        (if 2 ≤ (st.lines.add t).lines.length then
          (st.lines.add t).lines[(st.lines.add t).lines.length - 2]?
        else none)) ∧
    (st.move_to_next.1.lines = st.lines.add t ∧
      st.move_to_next.1.current = HistoryPos.Pos 0 ∧
      st.move_to_next.2 = none) := by
  have hc : st.lines.max_history ≠ 0 := by omega
  constructor
  · refine ⟨?_, ?_, add_getLast _ _ hc, ?_⟩ <;>
      simp [InputHistoryRef.move_to_prev, hnh, hcur, InputHistoryRef.as_ref,
        get_two]
  · refine ⟨?_, ?_, ?_⟩ <;>
      simp [InputHistoryRef.move_to_next, hnh, hcur, InputHistoryRef.as_ref,
        get_zero]

/-- Witness for C4's amended theorem: store `["a","b"]`, editing `"c"`. -/
theorem C4_commit_then_navigate_witness :
    (make_ref { lines := [['a'], ['b']], max_history := 4 }
        (some ['c'])).move_to_next.2 = none :=
  (C4_commit_then_navigate
    (make_ref { lines := [['a'], ['b']], max_history := 4 } (some ['c']))
    ['c'] rfl rfl (by decide)).2.2.2

/-- C5: starting from the empty store, after every sequence of `add`
operations the number of entries is at most the capacity and the entries are
pairwise distinct. -/
theorem C5_capacity_and_uniqueness (cap : Nat) (ss : List (List Char)) :
    (addAll (LineHistory.new cap) ss).lines.length ≤ cap ∧
      (addAll (LineHistory.new cap) ss).lines.Nodup := by
  have h := addAll_preserves ss (LineHistory.new cap)
    (by simp [LineHistory.new]) (by simp [LineHistory.new])
  exact ⟨h.2.1, h.2.2⟩

/-- C6: for a store with positive capacity satisfying the invariants, `add`
promotes an existing entry to the tail keeping the count, appends a fresh
entry, evicts exactly the oldest entry (index 0) exactly when the store is at
capacity, and never exceeds the capacity. -/
theorem C6_add_semantics (h : LineHistory) (s : List Char)
    (hcap : 0 < h.max_history) (hlen : h.lines.length ≤ h.max_history)
    (hnd : h.lines.Nodup) :
    (s ∈ h.lines →
      (h.add s).lines = h.lines.erase s ++ [s] ∧
      (h.add s).lines.length = h.lines.length) ∧
    (s ∉ h.lines → h.lines.length < h.max_history →
      (h.add s).lines = h.lines ++ [s]) ∧
    (s ∉ h.lines → h.lines.length = h.max_history →
      (h.add s).lines = h.lines.drop 1 ++ [s] ∧
      (h.add s).lines.length = h.max_history) ∧
    (h.add s).lines.length ≤ h.max_history := by
  have hc : h.max_history ≠ 0 := by omega
  refine ⟨?_, ?_, ?_, (add_preserves_invariants h s hlen hnd).1⟩
  · intro hm
    refine ⟨add_lines_of_mem h s hc hm, ?_⟩
    rw [add_lines_of_mem h s hc hm]
    have hpos : 0 < h.lines.length := List.length_pos_of_mem hm
    simp [List.length_erase_of_mem hm]
    omega
  · intro hm hlt
    rw [add_lines_of_not_mem h s hc hm]
    have hne : h.lines.length ≠ h.max_history := by omega
    simp [hne]
  · intro hm heq
    rw [add_lines_of_not_mem h s hc hm]
    refine ⟨by simp [heq], ?_⟩
    simp [heq]
    omega

/-- Witness for C6 at a concrete full store `["a","b"]` of capacity 2. -/
theorem C6_add_semantics_witness :
    ((LineHistory.mk [['a'], ['b']] 2).add ['c']).lines.length ≤ 2 :=
  (C6_add_semantics (LineHistory.mk [['a'], ['b']] 2) ['c']
    (by decide) (by decide) (by decide)).2.2.2

/-- C7: against a zero-capacity store, no sequence of cursor operations ever
mutates the store (the entries stay empty), `moveToPrev`/`moveToNext` leave
the cursor entirely unchanged and return exactly what `as_ref` (peek) reads,
and `clear` resets to `Nothing` without committing. -/
theorem C7_zero_capacity (init : Option (List Char)) (ops : List CursorOp) :
    ((applyOps (make_ref (LineHistory.new 0) init) ops).lines =
      LineHistory.new 0) ∧
    ((applyOps (make_ref (LineHistory.new 0) init) ops).move_to_prev.1 =
      applyOps (make_ref (LineHistory.new 0) init) ops) ∧
    ((applyOps (make_ref (LineHistory.new 0) init) ops).move_to_prev.2 =
      (applyOps (make_ref (LineHistory.new 0) init) ops).as_ref) ∧
    ((applyOps (make_ref (LineHistory.new 0) init) ops).move_to_next.1 =
      applyOps (make_ref (LineHistory.new 0) init) ops) ∧
    ((applyOps (make_ref (LineHistory.new 0) init) ops).move_to_next.2 =
      (applyOps (make_ref (LineHistory.new 0) init) ops).as_ref) ∧
    ((applyOps (make_ref (LineHistory.new 0) init) ops).clear.current =
      HistoryPos.Nothing) ∧
    ((applyOps (make_ref (LineHistory.new 0) init) ops).clear.lines =
      LineHistory.new 0) := by
  have h0 : (make_ref (LineHistory.new 0) init).no_history = true := by
    cases init <;> rfl
  have h0l : (make_ref (LineHistory.new 0) init).lines = LineHistory.new 0 := by
    cases init <;> rfl
  obtain ⟨hl, hn⟩ := applyOps_zero_cap ops (make_ref (LineHistory.new 0) init) h0
  refine ⟨by rw [hl, h0l], ?_, ?_, ?_, ?_, clear_current _, ?_⟩
  · simp [InputHistoryRef.move_to_prev, hn]
  · simp [InputHistoryRef.move_to_prev, hn]
  · simp [InputHistoryRef.move_to_next, hn]
  · simp [InputHistoryRef.move_to_next, hn]
  · simp [InputHistoryRef.clear, hn, hl, h0l]

/-- C8: `pushChar c` never touches the store (the browsed entry is neither
committed nor re-promoted), and transitions `Editing(t)` to `Editing(t+c)` and
any other state to `Editing(c)`. -/
theorem C8_push_char_transitions (st : InputHistoryRef) (c : Char) :
    (st.push_char c).1.lines = st.lines ∧
    (st.push_char c).1.current =
      (match st.current with
        | HistoryPos.Str t => HistoryPos.Str (t ++ [c])
        | _ => HistoryPos.Str [c]) := by
  cases h : st.current <;> simp [InputHistoryRef.push_char, h]

/-- C9: with capacity > 0, `clear` resets the state to `Nothing` and commits
exactly the current content: an in-progress string is added, a navigated
position adds the entry it resolves to (if any), and `Nothing` leaves the
store unchanged; a second `clear` is a no-op, so disposal commits exactly
once. -/
theorem C9_clear_semantics (st : InputHistoryRef)
    (h : st.no_history = false) :
    st.clear.current = HistoryPos.Nothing ∧
    st.clear.lines =
      (match st.current with
        | HistoryPos.Nothing => st.lines
        | HistoryPos.Str t => st.lines.add t
        | HistoryPos.Pos p =>
            match st.lines.get p with
            | some s => st.lines.add s
            | none => st.lines) ∧
    st.clear.clear = st.clear := by
  refine ⟨clear_current st, ?_, clear_of_nothing _ (clear_current st)⟩
  cases hc : st.current with
  | Nothing => simp [InputHistoryRef.clear, h, hc]
  | Str t => simp [InputHistoryRef.clear, h, hc]
  | Pos p =>
      rcases hg : st.lines.get p with _ | s <;>
        simp [InputHistoryRef.clear, h, hc, hg]

/-- Witness for C9 with an editing cursor holding `"x"`. -/
theorem C9_clear_semantics_witness :
    (InputHistoryRef.mk (LineHistory.new 4) (HistoryPos.Str ['x'])
        false).clear.current = HistoryPos.Nothing :=
  (C9_clear_semantics
    (InputHistoryRef.mk (LineHistory.new 4) (HistoryPos.Str ['x']) false)
    rfl).1

/-- C10: from every cursor state, `push_char c` ends in `Editing` holding a
non-empty string ending in `c`, returns exactly that string, and the
`unreachable!()` arm (rendered as the `none` result) is never taken. -/
theorem C10_push_char_no_unreachable (st : InputHistoryRef) (c : Char) :
    ∃ s, (st.push_char c).1.current = HistoryPos.Str s ∧
      (st.push_char c).2 = some s ∧ s ≠ [] ∧ s.getLast? = some c := by
  cases h : st.current with
  | Nothing =>
      exact ⟨[c], by simp [InputHistoryRef.push_char, h],
        by simp [InputHistoryRef.push_char, h], by simp, by simp⟩
  | Str t =>
      exact ⟨t ++ [c], by simp [InputHistoryRef.push_char, h],
        by simp [InputHistoryRef.push_char, h], by simp, by simp⟩
  | Pos p =>
      exact ⟨[c], by simp [InputHistoryRef.push_char, h],
        by simp [InputHistoryRef.push_char, h], by simp, by simp⟩

end AmpHistory
